import Mathlib

/-!
Shallow embedding of `samples.go` from the `treeagent` repository.

The Go file converts a batch of rollouts (`anyrl.RolloutSet`) into a stream
of training samples.  Channels of samples are modelled as Lean `List`s (the
channel preserves order and is fully drained), `float64` values that are
only ever copied, compared and truncated are modelled as `Rat`, and the
fatal runtime panics of the generator goroutine (nil-pointer dereference
when the actions tape ends early, integer division by zero when a presence
mask is all-false) are modelled by an `Except` error result.
-/

namespace Treeagent

/-- Embeds `anyseq.Batch` (one timestep of a tape): `Present` is the
per-lane presence mask, `Packed` the packed values of the present lanes. -/
structure Batch where
  Present : List Bool
  Packed : List Rat
  deriving DecidableEq, Repr

/-- Embeds `Batch.NumPresent()`: the number of `true` entries of the mask. -/
def Batch.NumPresent (b : Batch) : Nat :=
  (b.Present.filter id).length

/-- Embeds the part of `anyrl.RolloutSet` used by `RolloutSamples`: the
tape of packed observation batches and the tape of packed
action-distribution batches, read in full (`ReadTape(0, -1)`). -/
structure RolloutSet where
  Inputs : List Batch
  Actions : List Batch
  deriving DecidableEq, Repr

/-- Embeds the `Sample` interface together with its two concrete
implementations `memorySample` (features as `float64`) and `uint8Sample`
(features as `uint8`, here a `Nat` that is `< 256` by construction). -/
inductive Sample where
  | memorySample (features : List Rat) (action : Nat) (advantage : Rat)
  | uint8Sample (features : List Nat) (action : Nat) (advantage : Rat)
  deriving DecidableEq, Repr

/-- Embeds `memorySample.Feature` / `uint8Sample.Feature`; the `uint8`
variant widens the stored byte back to a floating value. -/
def Sample.Feature : Sample → Nat → Rat
  | .memorySample fs _ _, idx => fs.getD idx 0
  | .uint8Sample fs _ _, idx => ((fs.getD idx 0 : Nat) : Rat)

/-- Embeds `memorySample.Action` / `uint8Sample.Action`. -/
def Sample.Action : Sample → Nat
  | .memorySample _ a _ => a
  | .uint8Sample _ a _ => a

/-- Embeds `memorySample.Advantage` / `uint8Sample.Advantage`. -/
def Sample.Advantage : Sample → Rat
  | .memorySample _ _ v => v
  | .uint8Sample _ _ v => v

/-- Modelled from the spec: the "supporting numeric unpacking helper"
`vecToFloats` (defined elsewhere in the repository, not under `src/`)
converts an `anyvec.Vector` to its `[]float64` contents; on our `List Rat`
representation of packed vectors it is the identity. -/
def vecToFloats (v : List Rat) : List Rat := v

/-- Embeds a Go slice expression `l[lo:hi]`. -/
def goSlice (l : List Rat) (lo hi : Nat) : List Rat :=
  (l.drop lo).take (hi - lo)

/-- Inner loop of `anyvec.MaxIndex`'s reference implementation (external
dependency): scan the remaining components, keeping the index of the
running maximum and updating only on a strictly larger component, so the
first maximum wins on ties. -/
def maxIndexLoop : List Rat → Nat → Nat → Rat → Nat
  | [], _, best, _ => best
  | x :: xs, i, best, bestVal =>
    if bestVal < x then maxIndexLoop xs (i + 1) i x
    else maxIndexLoop xs (i + 1) best bestVal

/-- Embeds `anyvec.MaxIndex` (external dependency): the index of the
maximum component, the first one on ties. -/
def MaxIndex : List Rat → Nat
  | [] => 0
  | x :: xs => maxIndexLoop xs 1 0 x

/-- The fatal conditions that abort the generator goroutine of
`RolloutSamples`: `divisionByZero` is the integer division panic at
`numFeatures := len(inValues) / batch` when no lane is present, and
`actionStreamEnded` is the nil-pointer panic at `output.Packed.Len()`
after `<-outChan` yielded the zero value because the actions tape closed
before the inputs tape. -/
inductive GenError where
  | divisionByZero
  | actionStreamEnded
  deriving DecidableEq, Repr

/-- Embeds the inner `for lane, pres := range input.Present` loop of
`RolloutSamples`: `lane` is the range index, `i` counts present lanes seen
so far, and each present lane emits one `memorySample` built from its
feature slice, the argmax of its action-distribution slice, and
`advantages[lane][timestep]`. -/
def laneSamples (inValues outValues : List Rat) (numFeatures numActions : Nat)
    (advantages : Nat → Nat → Rat) (timestep : Nat) :
    Nat → Nat → List Bool → List Sample
  | _, _, [] => []
  | lane, i, pres :: rest =>
    if pres then
      Sample.memorySample
          (goSlice inValues (i * numFeatures) ((i + 1) * numFeatures))
          (MaxIndex (goSlice outValues (i * numActions) ((i + 1) * numActions)))
          (advantages lane timestep)
        :: laneSamples inValues outValues numFeatures numActions advantages timestep
            (lane + 1) (i + 1) rest
    else
      laneSamples inValues outValues numFeatures numActions advantages timestep
        (lane + 1) i rest

/-- Embeds the `for input := range inChan` goroutine body of
`RolloutSamples`.  Per timestep: unpack the observation batch, compute the
present-lane count and fail like the Go code does when it is zero
(`numFeatures := len(inValues) / batch` divides by zero), then require the
paired action batch and fail like the Go code does when the actions tape
has ended (`output.Packed.Len()` dereferences nil), derive `numFeatures`
and `numActions` by integer division, and emit one sample per present
lane before moving on to timestep `t+1`. -/
def rolloutLoop (advantages : Nat → Nat → Rat) :
    Nat → List Batch → List Batch → Except GenError (List Sample)
  | _, [], _ => .ok []
  | timestep, input :: ins, outs =>
    let inValues := vecToFloats input.Packed
    let batch := input.NumPresent
    if batch = 0 then
      .error .divisionByZero
    else
      match outs with
      | [] => .error .actionStreamEnded
      | output :: restOuts =>
        let numFeatures := inValues.length / batch
        let numActions := output.Packed.length / batch
        match rolloutLoop advantages (timestep + 1) ins restOuts with
        | .error e => .error e
        | .ok rest =>
          .ok (laneSamples inValues output.Packed numFeatures numActions
                advantages timestep 0 0 input.Present ++ rest)

/-- Embeds `RolloutSamples`: the full drained output of the sample channel,
or the fatal error that aborted the generator.  The advantage table
`anyrl.Rewards` (`[][]float64`, indexed `advantages[lane][timestep]`) is
modelled as a total function, matching the documented precondition that it
covers every present (lane, timestep) pair. -/
def RolloutSamples (r : RolloutSet) (advantages : Nat → Nat → Rat) :
    Except GenError (List Sample) :=
  rolloutLoop advantages 0 r.Inputs r.Actions

/-- Ghost data recorded alongside each emitted sample by the instrumented
generator: the lane and timestep the sample was derived from, and the
action-distribution sub-vector its action was computed from. -/
structure Emit where
  lane : Nat
  timestep : Nat
  subOuts : List Rat
  deriving DecidableEq, Repr

/-- Instrumented copy of `laneSamples` that additionally records, for each
emitted sample, the `Emit` ghost data.  Mapping `Prod.snd` over its output
recovers `laneSamples` exactly (`laneSamplesT_snd`). -/
def laneSamplesT (inValues outValues : List Rat) (numFeatures numActions : Nat)
    (advantages : Nat → Nat → Rat) (timestep : Nat) :
    Nat → Nat → List Bool → List (Emit × Sample)
  | _, _, [] => []
  | lane, i, pres :: rest =>
    if pres then
      (Emit.mk lane timestep
          (goSlice outValues (i * numActions) ((i + 1) * numActions)),
        Sample.memorySample
          (goSlice inValues (i * numFeatures) ((i + 1) * numFeatures))
          (MaxIndex (goSlice outValues (i * numActions) ((i + 1) * numActions)))
          (advantages lane timestep))
        :: laneSamplesT inValues outValues numFeatures numActions advantages timestep
            (lane + 1) (i + 1) rest
    else
      laneSamplesT inValues outValues numFeatures numActions advantages timestep
        (lane + 1) i rest

/-- Instrumented copy of `rolloutLoop` over `laneSamplesT`. -/
def rolloutLoopT (advantages : Nat → Nat → Rat) :
    Nat → List Batch → List Batch → Except GenError (List (Emit × Sample))
  | _, [], _ => .ok []
  | timestep, input :: ins, outs =>
    let inValues := vecToFloats input.Packed
    let batch := input.NumPresent
    if batch = 0 then
      .error .divisionByZero
    else
      match outs with
      | [] => .error .actionStreamEnded
      | output :: restOuts =>
        let numFeatures := inValues.length / batch
        let numActions := output.Packed.length / batch
        match rolloutLoopT advantages (timestep + 1) ins restOuts with
        | .error e => .error e
        | .ok rest =>
          .ok (laneSamplesT inValues output.Packed numFeatures numActions
                advantages timestep 0 0 input.Present ++ rest)

/-- Instrumented copy of `RolloutSamples`; projecting away the ghost data
recovers `RolloutSamples` exactly (`RolloutSamplesT_snd`). -/
def RolloutSamplesT (r : RolloutSet) (advantages : Nat → Nat → Rat) :
    Except GenError (List (Emit × Sample)) :=
  rolloutLoopT advantages 0 r.Inputs r.Actions

/-- Embeds the Go conversion `uint8(f)` applied to a `float64` by
`Uint8Samples`: truncate toward zero (for a rational, `num.tdiv den`) and
keep the low 8 bits (two's-complement wraparound, i.e. euclidean modulo
`256`). -/
def uint8OfFloat (q : Rat) : Nat :=
  (q.num.tdiv (q.den : Int) % 256).toNat

/-- Embeds the body of the `for in := range incoming` loop of
`Uint8Samples`: a fresh `uint8Sample` whose `numFeatures` features are the
truncated input features and whose action and advantage are copied. -/
def quantizeSample (numFeatures : Nat) (s : Sample) : Sample :=
  Sample.uint8Sample
    ((List.range numFeatures).map (fun i => uint8OfFloat (s.Feature i)))
    s.Action
    s.Advantage

/-- Embeds `Uint8Samples`: the fully drained output channel, one quantized
sample per incoming sample, in order. -/
def Uint8Samples (numFeatures : Nat) (incoming : List Sample) : List Sample :=
  incoming.map (quantizeSample numFeatures)

/-- Embeds `AllSamples`: drain the channel, appending each sample to a
slice. -/
def AllSamples (ch : List Sample) : List Sample :=
  ch.foldl (fun res s => res ++ [s]) []

/-- Written from the spec's words (order-preservation property): the
strict timestep-major, ascending-lane enumeration of the present
(lane, timestep) pairs of a tape of observation batches. -/
def specPresentPairsFrom (t0 : Nat) (inputs : List Batch) : List (Nat × Nat) :=
  ((inputs.enumFrom t0).map (fun p =>
    ((p.2.Present.enum.filter (fun q => q.2)).map (fun q => (q.1, p.1))))).flatten

/-- Written from the spec's words: `specPresentPairsFrom` starting at
timestep `0`. -/
def specPresentPairs (inputs : List Batch) : List (Nat × Nat) :=
  specPresentPairsFrom 0 inputs

/-! ### Helper lemmas: argmax -/

/-- Invariant of `maxIndexLoop`: either no remaining component beats the
running maximum and its index is returned, or the first strictly larger
remaining component that is never beaten afterwards is selected. -/
theorem maxIndexLoop_spec (xs : List Rat) : ∀ (i best : Nat) (bestVal : Rat),
    (maxIndexLoop xs i best bestVal = best ∧
      ∀ j, j < xs.length → xs.getD j 0 ≤ bestVal) ∨
    (∃ j, j < xs.length ∧ maxIndexLoop xs i best bestVal = i + j ∧
      bestVal < xs.getD j 0 ∧
      (∀ k, k < xs.length → xs.getD k 0 ≤ xs.getD j 0) ∧
      (∀ k, k < j → xs.getD k 0 < xs.getD j 0)) := by
  induction xs with
  | nil =>
    intro i best bestVal
    exact Or.inl ⟨rfl, fun j hj => absurd hj (by simp)⟩
  | cons x xs ih =>
    intro i best bestVal
    by_cases hx : bestVal < x
    · rcases ih (i + 1) i x with ⟨heq, hall⟩ | ⟨j, hj, heq, hlt, hall, hfirst⟩
      · refine Or.inr ⟨0, by simp, ?_, by simpa using hx, ?_, fun k hk => absurd hk (by omega)⟩
        · rw [maxIndexLoop, if_pos hx, heq]
          omega
        · intro k hk
          match k with
          | 0 => simp
          | k + 1 =>
            rw [List.getD_cons_succ, List.getD_cons_zero]
            exact hall k (by simpa using hk)
      · refine Or.inr ⟨j + 1, by simpa using hj, ?_, ?_, ?_, ?_⟩
        · rw [maxIndexLoop, if_pos hx, heq]
          omega
        · rw [List.getD_cons_succ]
          exact lt_trans hx hlt
        · intro k hk
          match k with
          | 0 =>
            rw [List.getD_cons_zero, List.getD_cons_succ]
            exact le_of_lt hlt
          | k + 1 =>
            rw [List.getD_cons_succ, List.getD_cons_succ]
            exact hall k (by simpa using hk)
        · intro k hk
          match k with
          | 0 =>
            rw [List.getD_cons_zero, List.getD_cons_succ]
            exact hlt
          | k + 1 =>
            rw [List.getD_cons_succ, List.getD_cons_succ]
            exact hfirst k (by omega)
    · rcases ih (i + 1) best bestVal with ⟨heq, hall⟩ | ⟨j, hj, heq, hlt, hall, hfirst⟩
      · refine Or.inl ⟨?_, ?_⟩
        · rw [maxIndexLoop, if_neg hx, heq]
        · intro j hjlen
          match j with
          | 0 => simpa using le_of_not_lt hx
          | j + 1 =>
            rw [List.getD_cons_succ]
            exact hall j (by simpa using hjlen)
      · refine Or.inr ⟨j + 1, by simpa using hj, ?_, ?_, ?_, ?_⟩
        · rw [maxIndexLoop, if_neg hx, heq]
          omega
        · rw [List.getD_cons_succ]
          exact hlt
        · intro k hk
          match k with
          | 0 =>
            rw [List.getD_cons_zero, List.getD_cons_succ]
            exact le_of_lt (lt_of_le_of_lt (le_of_not_lt hx) hlt)
          | k + 1 =>
            rw [List.getD_cons_succ, List.getD_cons_succ]
            exact hall k (by simpa using hk)
        · intro k hk
          match k with
          | 0 =>
            rw [List.getD_cons_zero, List.getD_cons_succ]
            exact lt_of_le_of_lt (le_of_not_lt hx) hlt
          | k + 1 =>
            rw [List.getD_cons_succ, List.getD_cons_succ]
            exact hfirst k (by omega)

/-- `MaxIndex` returns a valid index of a maximal component, and every
component before it is strictly smaller: the first maximum wins ties. -/
theorem maxIndex_first_max (v : List Rat) (hv : v ≠ []) :
    MaxIndex v < v.length ∧
    (∀ j, j < v.length → v.getD j 0 ≤ v.getD (MaxIndex v) 0) ∧
    (∀ j, j < MaxIndex v → v.getD j 0 < v.getD (MaxIndex v) 0) := by
  match v with
  | [] => exact absurd rfl hv
  | x :: xs =>
    have hM : MaxIndex (x :: xs) = maxIndexLoop xs 1 0 x := rfl
    rcases maxIndexLoop_spec xs 1 0 x with ⟨heq, hall⟩ | ⟨j, hj, heq, hlt, hall, hfirst⟩
    · have h0 : MaxIndex (x :: xs) = 0 := by rw [hM, heq]
      rw [h0]
      refine ⟨by simp, ?_, fun j hj => absurd hj (by omega)⟩
      intro j hjlen
      match j with
      | 0 => simp
      | j + 1 =>
        rw [List.getD_cons_succ, List.getD_cons_zero]
        exact hall j (by simpa using hjlen)
    · have h1 : MaxIndex (x :: xs) = j + 1 := by rw [hM, heq]; omega
      rw [h1, List.getD_cons_succ]
      refine ⟨by simpa using hj, ?_, ?_⟩
      · intro k hk
        match k with
        | 0 =>
          rw [List.getD_cons_zero]
          exact le_of_lt hlt
        | k + 1 =>
          rw [List.getD_cons_succ]
          exact hall k (by simpa using hk)
      · intro k hk
        match k with
        | 0 =>
          rw [List.getD_cons_zero]
          exact hlt
        | k + 1 =>
          rw [List.getD_cons_succ]
          exact hfirst k (by omega)

/-! ### Helper lemmas: the generator loop -/

/-- Unfolding equation for `rolloutLoop`: nonempty inputs tape, exhausted
actions tape. -/
theorem rolloutLoop_cons_nil (adv : Nat → Nat → Rat) (t : Nat) (input : Batch)
    (ins : List Batch) :
    rolloutLoop adv t (input :: ins) [] =
      if input.NumPresent = 0 then .error .divisionByZero
      else .error .actionStreamEnded := rfl

/-- Unfolding equation for `rolloutLoop`: nonempty inputs tape, available
action batch. -/
theorem rolloutLoop_cons_cons (adv : Nat → Nat → Rat) (t : Nat)
    (input output : Batch) (ins restOuts : List Batch) :
    rolloutLoop adv t (input :: ins) (output :: restOuts) =
      if input.NumPresent = 0 then .error .divisionByZero
      else
        match rolloutLoop adv (t + 1) ins restOuts with
        | .error e => .error e
        | .ok rest =>
          .ok (laneSamples input.Packed output.Packed
                (input.Packed.length / input.NumPresent)
                (output.Packed.length / input.NumPresent)
                adv t 0 0 input.Present ++ rest) := rfl

/-- Unfolding equation for `rolloutLoopT`: nonempty inputs tape, exhausted
actions tape. -/
theorem rolloutLoopT_cons_nil (adv : Nat → Nat → Rat) (t : Nat) (input : Batch)
    (ins : List Batch) :
    rolloutLoopT adv t (input :: ins) [] =
      if input.NumPresent = 0 then .error .divisionByZero
      else .error .actionStreamEnded := rfl

/-- Unfolding equation for `rolloutLoopT`: nonempty inputs tape, available
action batch. -/
theorem rolloutLoopT_cons_cons (adv : Nat → Nat → Rat) (t : Nat)
    (input output : Batch) (ins restOuts : List Batch) :
    rolloutLoopT adv t (input :: ins) (output :: restOuts) =
      if input.NumPresent = 0 then .error .divisionByZero
      else
        match rolloutLoopT adv (t + 1) ins restOuts with
        | .error e => .error e
        | .ok rest =>
          .ok (laneSamplesT input.Packed output.Packed
                (input.Packed.length / input.NumPresent)
                (output.Packed.length / input.NumPresent)
                adv t 0 0 input.Present ++ rest) := rfl

/-- Projecting the ghost data away from `laneSamplesT` yields
`laneSamples`. -/
theorem laneSamplesT_snd (inV outV : List Rat) (nF nA : Nat)
    (adv : Nat → Nat → Rat) (t : Nat) :
    ∀ (pres : List Bool) (lane i : Nat),
      (laneSamplesT inV outV nF nA adv t lane i pres).map Prod.snd =
        laneSamples inV outV nF nA adv t lane i pres := by
  intro pres
  induction pres with
  | nil => intro lane i; rfl
  | cons b rest ih =>
    intro lane i
    cases b with
    | true => simp [laneSamplesT, laneSamples, ih]
    | false => simp [laneSamplesT, laneSamples, ih]

/-- Projecting the ghost data away from `rolloutLoopT` yields
`rolloutLoop`. -/
theorem rolloutLoop_eq_T (adv : Nat → Nat → Rat) :
    ∀ (ins outs : List Batch) (t : Nat),
      rolloutLoop adv t ins outs =
        Except.map (List.map Prod.snd) (rolloutLoopT adv t ins outs) := by
  intro ins
  induction ins with
  | nil => intro outs t; rfl
  | cons input ins ih =>
    intro outs t
    cases outs with
    | nil =>
      rw [rolloutLoop_cons_nil, rolloutLoopT_cons_nil]
      by_cases h0 : input.NumPresent = 0
      · rw [if_pos h0, if_pos h0]; rfl
      · rw [if_neg h0, if_neg h0]; rfl
    | cons output restOuts =>
      rw [rolloutLoop_cons_cons, rolloutLoopT_cons_cons]
      by_cases h0 : input.NumPresent = 0
      · rw [if_pos h0, if_pos h0]; rfl
      · rw [if_neg h0, if_neg h0]
        rw [ih restOuts (t + 1)]
        cases hrec : rolloutLoopT adv (t + 1) ins restOuts with
        | error e => rfl
        | ok rest => simp [Except.map, List.map_append, laneSamplesT_snd]

/-- Every successful run of `RolloutSamples` is the ghost-data projection
of a successful run of `RolloutSamplesT`. -/
theorem rolloutSamples_okT (r : RolloutSet) (adv : Nat → Nat → Rat)
    (ss : List Sample) (h : RolloutSamples r adv = .ok ss) :
    ∃ tss, RolloutSamplesT r adv = .ok tss ∧ tss.map Prod.snd = ss := by
  rw [RolloutSamples, rolloutLoop_eq_T] at h
  cases hT : rolloutLoopT adv 0 r.Inputs r.Actions with
  | error e => rw [hT] at h; exact absurd h (by simp [Except.map])
  | ok tss =>
    rw [hT] at h
    simp only [Except.map, Except.ok.injEq] at h
    exact ⟨tss, hT, h⟩

/-- Shape of every element emitted by `laneSamplesT`: it carries its own
timestep, its advantage is the table entry for its lane and timestep, and
its action is the argmax of its recorded action sub-vector. -/
theorem laneSamplesT_mem (inV outV : List Rat) (nF nA : Nat)
    (adv : Nat → Nat → Rat) (t : Nat) :
    ∀ (pres : List Bool) (lane i : Nat) (e : Emit × Sample),
      e ∈ laneSamplesT inV outV nF nA adv t lane i pres →
      e.1.timestep = t ∧ e.2.Advantage = adv e.1.lane t ∧
        e.2.Action = MaxIndex e.1.subOuts := by
  intro pres
  induction pres with
  | nil => intro lane i e he; simp [laneSamplesT] at he
  | cons b rest ih =>
    intro lane i e he
    cases b with
    | false => exact ih (lane + 1) i e (by simpa [laneSamplesT] using he)
    | true =>
      simp only [laneSamplesT, if_pos] at he
      rcases List.mem_cons.mp he with rfl | hmem
      · exact ⟨rfl, rfl, rfl⟩
      · exact ih (lane + 1) (i + 1) e hmem

/-- Shape of every element of a successful `rolloutLoopT` run. -/
theorem rolloutLoopT_mem (adv : Nat → Nat → Rat) :
    ∀ (ins outs : List Batch) (t : Nat) (tss : List (Emit × Sample)),
      rolloutLoopT adv t ins outs = .ok tss →
      ∀ e ∈ tss, e.2.Advantage = adv e.1.lane e.1.timestep ∧
        e.2.Action = MaxIndex e.1.subOuts := by
  intro ins
  induction ins with
  | nil =>
    intro outs t tss h e he
    rw [rolloutLoopT] at h
    simp only [Except.ok.injEq] at h
    subst h
    simp at he
  | cons input ins ih =>
    intro outs t tss h e he
    cases outs with
    | nil =>
      rw [rolloutLoopT_cons_nil] at h
      by_cases h0 : input.NumPresent = 0
      · rw [if_pos h0] at h; simp at h
      · rw [if_neg h0] at h; simp at h
    | cons output restOuts =>
      rw [rolloutLoopT_cons_cons] at h
      by_cases h0 : input.NumPresent = 0
      · rw [if_pos h0] at h; simp at h
      · rw [if_neg h0] at h
        cases hrec : rolloutLoopT adv (t + 1) ins restOuts with
        | error e' => rw [hrec] at h; simp at h
        | ok rest =>
          rw [hrec] at h
          simp only [Except.ok.injEq] at h
          subst h
          rcases List.mem_append.mp he with hL | hR
          · obtain ⟨ht, hadv, hact⟩ :=
              laneSamplesT_mem input.Packed output.Packed
                (input.Packed.length / input.NumPresent)
                (output.Packed.length / input.NumPresent)
                adv t input.Present 0 0 e hL
            rw [← ht] at hadv
            exact ⟨hadv, hact⟩
          · exact ih restOuts (t + 1) rest hrec e hR

/-- The (lane, timestep) tags recorded by `laneSamplesT` are exactly the
ascending-lane enumeration of the present lanes of the mask. -/
theorem laneSamplesT_tags (inV outV : List Rat) (nF nA : Nat)
    (adv : Nat → Nat → Rat) (t : Nat) :
    ∀ (pres : List Bool) (lane i : Nat),
      (laneSamplesT inV outV nF nA adv t lane i pres).map
          (fun e => (e.1.lane, e.1.timestep)) =
        ((pres.enumFrom lane).filter (fun q => q.2)).map (fun q => (q.1, t)) := by
  intro pres
  induction pres with
  | nil => intro lane i; rfl
  | cons b rest ih =>
    intro lane i
    cases b with
    | true =>
      simp only [laneSamplesT, if_pos, List.enumFrom_cons, List.filter_cons]
      simp [ih (lane + 1) (i + 1)]
    | false =>
      simp only [laneSamplesT, List.enumFrom_cons, List.filter_cons]
      simp [ih (lane + 1) i]

/-- Unfolding equation for the spec-side enumeration. -/
theorem specPresentPairsFrom_cons (t : Nat) (b : Batch) (bs : List Batch) :
    specPresentPairsFrom t (b :: bs) =
      ((b.Present.enum.filter (fun q => q.2)).map (fun q => (q.1, t))) ++
        specPresentPairsFrom (t + 1) bs := by
  simp [specPresentPairsFrom, List.enumFrom_cons]

/-- The (lane, timestep) tags of a successful `rolloutLoopT` run are
exactly the timestep-major, lane-minor enumeration of present pairs. -/
theorem rolloutLoopT_tags (adv : Nat → Nat → Rat) :
    ∀ (ins outs : List Batch) (t : Nat) (tss : List (Emit × Sample)),
      rolloutLoopT adv t ins outs = .ok tss →
      tss.map (fun e => (e.1.lane, e.1.timestep)) = specPresentPairsFrom t ins := by
  intro ins
  induction ins with
  | nil =>
    intro outs t tss h
    rw [rolloutLoopT] at h
    simp only [Except.ok.injEq] at h
    subst h
    rfl
  | cons input ins ih =>
    intro outs t tss h
    cases outs with
    | nil =>
      rw [rolloutLoopT_cons_nil] at h
      by_cases h0 : input.NumPresent = 0
      · rw [if_pos h0] at h; simp at h
      · rw [if_neg h0] at h; simp at h
    | cons output restOuts =>
      rw [rolloutLoopT_cons_cons] at h
      by_cases h0 : input.NumPresent = 0
      · rw [if_pos h0] at h; simp at h
      · rw [if_neg h0] at h
        cases hrec : rolloutLoopT adv (t + 1) ins restOuts with
        | error e' => rw [hrec] at h; simp at h
        | ok rest =>
          rw [hrec] at h
          simp only [Except.ok.injEq] at h
          subst h
          rw [List.map_append, specPresentPairsFrom_cons,
            laneSamplesT_tags, ih restOuts (t + 1) rest hrec]
          rfl

/-- Filtering an enumerated mask keeps as many entries as filtering the
mask itself. -/
theorem enumFrom_filter_length (l : List Bool) :
    ∀ n : Nat, ((l.enumFrom n).filter (fun q => q.2)).length = (l.filter id).length := by
  induction l with
  | nil => intro n; rfl
  | cons b rest ih =>
    intro n
    cases b with
    | true => simp [List.enumFrom_cons, List.filter_cons, ih]
    | false => simp [List.enumFrom_cons, List.filter_cons, ih]

/-- The spec-side enumeration has one pair per present lane per batch. -/
theorem specPresentPairsFrom_length (ins : List Batch) :
    ∀ t : Nat, (specPresentPairsFrom t ins).length = (ins.map Batch.NumPresent).sum := by
  induction ins with
  | nil => intro t; rfl
  | cons b bs ih =>
    intro t
    rw [specPresentPairsFrom_cons, List.length_append, List.length_map, ih]
    have : (b.Present.enum.filter (fun q => q.2)).length = b.NumPresent := by
      have h := enumFrom_filter_length b.Present 0
      exact h
    rw [this]
    simp [Batch.NumPresent]

/-- Every pair of the spec-side enumeration starting at timestep `t` has
timestep at least `t`. -/
theorem specPresentPairsFrom_timestep_le (ins : List Batch) :
    ∀ (t : Nat) (p : Nat × Nat), p ∈ specPresentPairsFrom t ins → t ≤ p.2 := by
  induction ins with
  | nil => intro t p hp; simp [specPresentPairsFrom] at hp
  | cons b bs ih =>
    intro t p hp
    rw [specPresentPairsFrom_cons] at hp
    rcases List.mem_append.mp hp with h1 | h2
    · obtain ⟨q, _, rfl⟩ := List.mem_map.mp h1
      exact le_refl t
    · exact le_trans (Nat.le_succ t) (ih (t + 1) p h2)

/-- The spec-side enumeration is weakly sorted by timestep: all pairs of
timestep `t` precede all pairs of later timesteps. -/
theorem specPresentPairsFrom_sorted (ins : List Batch) :
    ∀ t : Nat, (specPresentPairsFrom t ins).Pairwise
      (fun p q : Nat × Nat => p.2 ≤ q.2) := by
  induction ins with
  | nil =>
    intro t
    have h : specPresentPairsFrom t [] = [] := rfl
    rw [h]
    exact List.Pairwise.nil
  | cons b bs ih =>
    intro t
    rw [specPresentPairsFrom_cons]
    apply List.pairwise_append.mpr
    refine ⟨?_, ih (t + 1), ?_⟩
    · rw [List.pairwise_map]
      exact List.pairwise_iff_forall_sublist.mpr (fun _ => le_refl t)
    · intro p hp q hq
      obtain ⟨p', _, rfl⟩ := List.mem_map.mp hp
      exact le_trans (Nat.le_succ t) (specPresentPairsFrom_timestep_le bs (t + 1) q hq)

/-- If the actions tape is shorter than the inputs tape, the loop always
ends in a fatal error. -/
theorem rolloutLoop_err_of_short (adv : Nat → Nat → Rat) :
    ∀ (ins outs : List Batch) (t : Nat), outs.length < ins.length →
      ∃ e, rolloutLoop adv t ins outs = .error e := by
  intro ins
  induction ins with
  | nil => intro outs t h; simp at h
  | cons input ins ih =>
    intro outs t h
    cases outs with
    | nil =>
      rw [rolloutLoop_cons_nil]
      by_cases h0 : input.NumPresent = 0
      · exact ⟨.divisionByZero, by rw [if_pos h0]⟩
      · exact ⟨.actionStreamEnded, by rw [if_neg h0]⟩
    | cons output restOuts =>
      by_cases h0 : input.NumPresent = 0
      · exact ⟨.divisionByZero, by rw [rolloutLoop_cons_cons, if_pos h0]⟩
      · obtain ⟨e, he⟩ := ih restOuts (t + 1)
          (by simp only [List.length_cons] at h; omega)
        exact ⟨e, by rw [rolloutLoop_cons_cons, if_neg h0, he]⟩

/-- If every input batch has a present lane, the loop never hits the
division by zero. -/
theorem rolloutLoop_no_divzero (adv : Nat → Nat → Rat) :
    ∀ (ins outs : List Batch) (t : Nat), (∀ b ∈ ins, b.NumPresent ≠ 0) →
      rolloutLoop adv t ins outs ≠ .error .divisionByZero := by
  intro ins
  induction ins with
  | nil =>
    intro outs t hpres hcon
    rw [rolloutLoop] at hcon
    simp at hcon
  | cons input ins ih =>
    intro outs t hpres hcon
    have h0 : input.NumPresent ≠ 0 := hpres input (List.mem_cons_self input ins)
    cases outs with
    | nil =>
      rw [rolloutLoop_cons_nil, if_neg h0] at hcon
      simp at hcon
    | cons output restOuts =>
      rw [rolloutLoop_cons_cons, if_neg h0] at hcon
      cases hrec : rolloutLoop adv (t + 1) ins restOuts with
      | error e =>
        rw [hrec] at hcon
        have he : e = .divisionByZero := by simpa using hcon
        exact ih restOuts (t + 1) (fun b hb => hpres b (List.mem_cons_of_mem _ hb))
          (he ▸ hrec)
      | ok rest => rw [hrec] at hcon; simp at hcon

/-- If some input batch has an all-false mask and the actions tape is long
enough, the loop fails with the division by zero. -/
theorem rolloutLoop_divzero_of_empty_mask (adv : Nat → Nat → Rat) :
    ∀ (ins outs : List Batch) (t : Nat), ins.length ≤ outs.length →
      (∃ b ∈ ins, b.NumPresent = 0) →
      rolloutLoop adv t ins outs = .error .divisionByZero := by
  intro ins
  induction ins with
  | nil => intro outs t hlen hex; simp at hex
  | cons input ins ih =>
    intro outs t hlen hex
    cases outs with
    | nil => simp at hlen
    | cons output restOuts =>
      by_cases h0 : input.NumPresent = 0
      · rw [rolloutLoop_cons_cons, if_pos h0]
      · rw [rolloutLoop_cons_cons, if_neg h0]
        obtain ⟨b, hb, hb0⟩ := hex
        have hb' : b ∈ ins := by
          rcases List.mem_cons.mp hb with rfl | hmem
          · exact absurd hb0 h0
          · exact hmem
        have hrec := ih restOuts (t + 1)
          (by simp only [List.length_cons] at hlen; omega) ⟨b, hb', hb0⟩
        rw [hrec]

/-! ### Claims on the generator -/

/-- C1: Every successful run of `RolloutSamples` is the projection of an
instrumented run whose (lane, timestep) tags are exactly the strict
timestep-major, ascending-lane enumeration of the present pairs, so the
`n`-th emitted sample's pair is the `n`-th pair of that enumeration; in
particular the tag sequence is weakly sorted by timestep, so all samples of
timestep `t` precede all samples of timestep `t+1`. -/
theorem rolloutSamples_order (r : RolloutSet) (advantages : Nat → Nat → Rat)
    (ss : List Sample) (h : RolloutSamples r advantages = .ok ss) :
    ∃ tss, RolloutSamplesT r advantages = .ok tss ∧ tss.map Prod.snd = ss ∧
      tss.map (fun e => (e.1.lane, e.1.timestep)) = specPresentPairs r.Inputs ∧
      (tss.map (fun e => (e.1.lane, e.1.timestep))).Pairwise
        (fun p q : Nat × Nat => p.2 ≤ q.2) := by
  obtain ⟨tss, hT, hsnd⟩ := rolloutSamples_okT r advantages ss h
  have htags := rolloutLoopT_tags advantages r.Inputs r.Actions 0 tss hT
  refine ⟨tss, hT, hsnd, htags, ?_⟩
  rw [htags]
  exact specPresentPairsFrom_sorted r.Inputs 0

/-- C2: Every sample emitted by `RolloutSamples`, derived from present lane
`l` at timestep `t`, has `Advantage` equal to the advantage table entry for
`(l, t)`. -/
theorem rolloutSamples_advantage (r : RolloutSet) (advantages : Nat → Nat → Rat)
    (ss : List Sample) (h : RolloutSamples r advantages = .ok ss) :
    ∃ tss, RolloutSamplesT r advantages = .ok tss ∧ tss.map Prod.snd = ss ∧
      ∀ e ∈ tss, e.2.Advantage = advantages e.1.lane e.1.timestep := by
  obtain ⟨tss, hT, hsnd⟩ := rolloutSamples_okT r advantages ss h
  exact ⟨tss, hT, hsnd, fun e he =>
    (rolloutLoopT_mem advantages r.Inputs r.Actions 0 tss hT e he).1⟩

/-- C3: The number of samples produced by a successful `RolloutSamples` run
equals the total number of present (lane, timestep) pairs of the batch,
i.e. the length of the spec-side enumeration and the sum of the per-batch
present-lane counts. -/
theorem rolloutSamples_count (r : RolloutSet) (advantages : Nat → Nat → Rat)
    (ss : List Sample) (h : RolloutSamples r advantages = .ok ss) :
    ss.length = (specPresentPairs r.Inputs).length ∧
      ss.length = (r.Inputs.map Batch.NumPresent).sum := by
  obtain ⟨tss, hT, hsnd⟩ := rolloutSamples_okT r advantages ss h
  have htags := rolloutLoopT_tags advantages r.Inputs r.Actions 0 tss hT
  have h1 : ss.length = tss.length := by rw [← hsnd, List.length_map]
  have h2 : tss.length = (specPresentPairs r.Inputs).length := by
    show tss.length = (specPresentPairsFrom 0 r.Inputs).length
    rw [← htags, List.length_map]
  refine ⟨h1.trans h2, ?_⟩
  rw [h1.trans h2]
  exact specPresentPairsFrom_length r.Inputs 0

/-- C4: Every sample emitted by `RolloutSamples` has `Action` equal to the
index of the maximum value of its lane's action-distribution sub-vector,
with ties broken by the lowest index: the action index is in range, no
component exceeds the one at the action index, and every earlier component
is strictly smaller. -/
theorem rolloutSamples_action (r : RolloutSet) (advantages : Nat → Nat → Rat)
    (ss : List Sample) (h : RolloutSamples r advantages = .ok ss) :
    ∃ tss, RolloutSamplesT r advantages = .ok tss ∧ tss.map Prod.snd = ss ∧
      ∀ e ∈ tss, e.1.subOuts ≠ [] →
        e.2.Action < e.1.subOuts.length ∧
        (∀ j, j < e.1.subOuts.length →
          e.1.subOuts.getD j 0 ≤ e.1.subOuts.getD e.2.Action 0) ∧
        (∀ j, j < e.2.Action →
          e.1.subOuts.getD j 0 < e.1.subOuts.getD e.2.Action 0) := by
  obtain ⟨tss, hT, hsnd⟩ := rolloutSamples_okT r advantages ss h
  refine ⟨tss, hT, hsnd, fun e he hne => ?_⟩
  have hact := (rolloutLoopT_mem advantages r.Inputs r.Actions 0 tss hT e he).2
  rw [hact]
  exact maxIndex_first_max e.1.subOuts hne

/-- C8: When the action-distribution tape is shorter than the observation
tape, `RolloutSamples` aborts with a fatal error instead of emitting
samples for the unmatched observation timesteps or skipping them. -/
theorem rolloutSamples_fatal_on_short_actions (r : RolloutSet)
    (advantages : Nat → Nat → Rat) (h : r.Actions.length < r.Inputs.length) :
    ∃ e, RolloutSamples r advantages = .error e :=
  rolloutLoop_err_of_short advantages r.Inputs r.Actions 0 h

/-- C10: `RolloutSamples` requires every observation batch to have at least
one present lane: under that precondition the per-timestep divisions are
well-defined and the division-by-zero failure cannot happen, while a batch
whose presence mask is all-false makes the generator fail with the division
by zero (whenever the actions tape does not run out first, which would
itself be a fatal error). -/
theorem rolloutSamples_requires_present_lane (r : RolloutSet)
    (advantages : Nat → Nat → Rat) :
    ((∀ b ∈ r.Inputs, b.NumPresent ≠ 0) →
      RolloutSamples r advantages ≠ .error .divisionByZero) ∧
    (∀ b ∈ r.Inputs, b.NumPresent = 0 → r.Inputs.length ≤ r.Actions.length →
      RolloutSamples r advantages = .error .divisionByZero) :=
  ⟨fun hpres => rolloutLoop_no_divzero advantages r.Inputs r.Actions 0 hpres,
   fun b hb hb0 hlen =>
     rolloutLoop_divzero_of_empty_mask advantages r.Inputs r.Actions 0 hlen ⟨b, hb, hb0⟩⟩

/-! ### Concrete witness inputs

A two-lane, two-timestep rollout: both lanes present at timestep 0 with
three features and two actions each, only lane 0 present at timestep 1. -/

/-- Concrete advantage table for the witnesses. -/
def advW : Nat → Nat → Rat
  | 0, 0 => 1
  | 0, 1 => 5
  | 1, 0 => -2
  | _, _ => 0

/-- Concrete rollout set for the witnesses. -/
def rW : RolloutSet :=
  { Inputs := [Batch.mk [true, true] [1, 2, 3, 4, 5, 6],
               Batch.mk [true, false] [7, 8, 9]],
    Actions := [Batch.mk [true, true] [1, 2, 3, 9],
                Batch.mk [true, false] [3, 4]] }

/-- The samples `RolloutSamples` produces for `rW` and `advW`. -/
def ssW : List Sample :=
  [Sample.memorySample [1, 2, 3] 1 1,
   Sample.memorySample [4, 5, 6] 1 (-2),
   Sample.memorySample [7, 8, 9] 1 5]

/-- Concrete rollout set whose actions tape is too short. -/
def rShort : RolloutSet :=
  { Inputs := [Batch.mk [true] [1]], Actions := [] }

/-- Concrete rollout set with an all-false presence mask. -/
def rBad : RolloutSet :=
  { Inputs := [Batch.mk [false, false] []], Actions := [Batch.mk [true] [1]] }

/-- Witness for C1 at the concrete rollout `rW`. -/
theorem rolloutSamples_order_witness :
    ∃ tss, RolloutSamplesT rW advW = .ok tss ∧ tss.map Prod.snd = ssW ∧
      tss.map (fun e => (e.1.lane, e.1.timestep)) = specPresentPairs rW.Inputs ∧
      (tss.map (fun e => (e.1.lane, e.1.timestep))).Pairwise
        (fun p q : Nat × Nat => p.2 ≤ q.2) :=
  rolloutSamples_order rW advW ssW rfl

/-- Witness for C2 at the concrete rollout `rW`. -/
theorem rolloutSamples_advantage_witness :
    ∃ tss, RolloutSamplesT rW advW = .ok tss ∧ tss.map Prod.snd = ssW ∧
      ∀ e ∈ tss, e.2.Advantage = advW e.1.lane e.1.timestep :=
  rolloutSamples_advantage rW advW ssW rfl

/-- Witness for C3 at the concrete rollout `rW`. -/
theorem rolloutSamples_count_witness :
    ssW.length = (specPresentPairs rW.Inputs).length ∧
      ssW.length = (rW.Inputs.map Batch.NumPresent).sum :=
  rolloutSamples_count rW advW ssW rfl

/-- Witness for C4 at the concrete rollout `rW`. -/
theorem rolloutSamples_action_witness :
    ∃ tss, RolloutSamplesT rW advW = .ok tss ∧ tss.map Prod.snd = ssW ∧
      ∀ e ∈ tss, e.1.subOuts ≠ [] →
        e.2.Action < e.1.subOuts.length ∧
        (∀ j, j < e.1.subOuts.length →
          e.1.subOuts.getD j 0 ≤ e.1.subOuts.getD e.2.Action 0) ∧
        (∀ j, j < e.2.Action →
          e.1.subOuts.getD j 0 < e.1.subOuts.getD e.2.Action 0) :=
  rolloutSamples_action rW advW ssW rfl

/-- Witness for C8 at the concrete rollout `rShort`. -/
theorem rolloutSamples_fatal_on_short_actions_witness :
    ∃ e, RolloutSamples rShort advW = .error e :=
  rolloutSamples_fatal_on_short_actions rShort advW (by decide)

/-- Witness for C10: `rW` (all batches have a present lane) never divides
by zero, while `rBad` (an all-false mask) fails with the division by
zero. -/
theorem rolloutSamples_requires_present_lane_witness :
    RolloutSamples rW advW ≠ .error .divisionByZero ∧
      RolloutSamples rBad advW = .error .divisionByZero :=
  ⟨(rolloutSamples_requires_present_lane rW advW).1 (by decide),
   (rolloutSamples_requires_present_lane rBad advW).2
     (Batch.mk [false, false] []) (by decide) (by decide) (by decide)⟩

/-! ### Helper lemmas: quantization -/

/-- Truncation toward zero of a rational, as done by Go's `uint8(f)` cast
on the numerator/denominator representation, agrees with the floor-based
description of toward-zero truncation. -/
theorem ratTrunc_eq (q : Rat) :
    q.num.tdiv (q.den : Int) = if 0 ≤ q then ⌊q⌋ else -⌊-q⌋ := by
  by_cases h : 0 ≤ q
  · rw [if_pos h, Rat.floor_def]
    exact Int.tdiv_eq_ediv (Rat.num_nonneg.mpr h) (Int.natCast_nonneg q.den)
  · rw [if_neg h]
    have hq : q.num < 0 := by
      have := (Rat.num_nonneg (q := q)).mpr
      by_contra hc
      exact h ((Rat.num_nonneg (q := q)).mp (by omega))
    have h1 : q.num.tdiv (q.den : Int) = -((-q.num).tdiv (q.den : Int)) := by
      rw [Int.neg_tdiv, neg_neg]
    rw [h1]
    congr 1
    rw [Rat.floor_def, Rat.num_neg_eq_neg_num]
    have hden : (-q).den = q.den := rfl
    rw [hden]
    exact Int.tdiv_eq_ediv (by omega) (Int.natCast_nonneg q.den)

/-- The quantized byte is always in `[0, 256)`. -/
theorem uint8OfFloat_lt (q : Rat) : uint8OfFloat q < 256 := by
  unfold uint8OfFloat
  have h1 : 0 ≤ q.num.tdiv (q.den : Int) % 256 :=
    Int.emod_nonneg _ (by norm_num)
  have h2 : q.num.tdiv (q.den : Int) % 256 < 256 :=
    Int.emod_lt_of_pos _ (by norm_num)
  omega

/-- On a nonnegative integer value `≤ 255` the Go `uint8` cast is the
identity. -/
theorem uint8OfFloat_int (k : Nat) (hk : k ≤ 255) : uint8OfFloat (k : Rat) = k := by
  unfold uint8OfFloat
  rw [Rat.num_natCast, Rat.den_natCast]
  simp only [Nat.cast_one, Int.tdiv_one]
  have hlt : (k : Int) < 256 := by exact_mod_cast Nat.lt_succ_of_le hk
  rw [Int.emod_eq_of_lt (Int.natCast_nonneg k) hlt]
  exact Int.toNat_natCast k

/-- C5: For every input sample stream whose feature values are all integers
in `[0, 255]`, the output stream of `Uint8Samples` has the same length and
order as the input (the `n`-th output comes from the `n`-th input), and for
every output sample and every `idx < numFeatures`, `Feature idx` equals the
corresponding input sample's `Feature idx` exactly: quantize-then-widen is
the identity on in-range integer features. -/
theorem uint8Samples_fidelity (nf : Nat) (ins : List Sample)
    (h : ∀ s ∈ ins, ∀ idx, idx < nf → ∃ k : Nat, k ≤ 255 ∧ s.Feature idx = (k : Rat)) :
    (Uint8Samples nf ins).length = ins.length ∧
    ∀ n s, ins.get? n = some s →
      ∃ s', (Uint8Samples nf ins).get? n = some s' ∧
        ∀ idx, idx < nf → s'.Feature idx = s.Feature idx := by
  constructor
  · simp [Uint8Samples]
  · intro n s hn
    refine ⟨quantizeSample nf s, ?_, ?_⟩
    · rw [Uint8Samples, List.get?_map, hn]
      rfl
    · intro idx hidx
      have hs : s ∈ ins := List.get?_mem hn
      obtain ⟨k, hk, hfeat⟩ := h s hs idx hidx
      show ((((List.range nf).map (fun i => uint8OfFloat (s.Feature i))).getD idx 0 : Nat) : Rat) =
        s.Feature idx
      rw [List.getD_eq_get?, List.get?_map, List.get?_range hidx]
      simp only [Option.map_some', Option.getD_some]
      rw [hfeat, uint8OfFloat_int k hk]

/-- Witness for C5 at a concrete stream: one dense sample with integer
features `[3, 255]`. -/
theorem uint8Samples_fidelity_witness :
    (Uint8Samples 2 [Sample.memorySample [3, 255] 1 (1 / 2)]).length =
        [Sample.memorySample [3, 255] 1 (1 / 2)].length ∧
      ∀ n s, [Sample.memorySample [3, 255] 1 (1 / 2)].get? n = some s →
        ∃ s', (Uint8Samples 2 [Sample.memorySample [3, 255] 1 (1 / 2)]).get? n = some s' ∧
          ∀ idx, idx < 2 → s'.Feature idx = s.Feature idx := by
  apply uint8Samples_fidelity 2 [Sample.memorySample [3, 255] 1 (1 / 2)]
  intro s hs idx hidx
  have hs' : s = Sample.memorySample [3, 255] 1 (1 / 2) := by
    simpa using hs
  subst hs'
  interval_cases idx
  · exact ⟨3, by norm_num, by decide⟩
  · exact ⟨255, by norm_num, by decide⟩

/-- C6: Every output sample of `Uint8Samples` carries the action and the
advantage of the corresponding input sample unchanged; only the feature
representation changes. -/
theorem uint8Samples_copies_action_advantage (nf : Nat) (ins : List Sample)
    (n : Nat) (s : Sample) (hn : ins.get? n = some s) :
    ∃ s', (Uint8Samples nf ins).get? n = some s' ∧
      s'.Action = s.Action ∧ s'.Advantage = s.Advantage := by
  refine ⟨quantizeSample nf s, ?_, rfl, rfl⟩
  rw [Uint8Samples, List.get?_map, hn]
  rfl

/-- Witness for C6 at a concrete stream. -/
theorem uint8Samples_copies_action_advantage_witness :
    ∃ s', (Uint8Samples 2 [Sample.memorySample [3, 700] 4 (-7 / 3)]).get? 0 = some s' ∧
      s'.Action = (Sample.memorySample [3, 700] 4 (-7 / 3)).Action ∧
      s'.Advantage = (Sample.memorySample [3, 700] 4 (-7 / 3)).Advantage :=
  uint8Samples_copies_action_advantage 2 [Sample.memorySample [3, 700] 4 (-7 / 3)]
    0 (Sample.memorySample [3, 700] 4 (-7 / 3)) rfl

/-- C7: For every input sample and feature index `idx < numFeatures`, the
output sample of `Uint8Samples` stores the input's `Feature idx` truncated
toward zero and reduced modulo `2^8` into an 8-bit value: no clamping,
out-of-range values wrap around with fixed-width unsigned overflow
semantics. -/
theorem uint8Samples_truncates (nf : Nat) (ins : List Sample) (n : Nat)
    (s : Sample) (idx : Nat) (hn : ins.get? n = some s) (hidx : idx < nf) :
    ∃ fs a v b, (Uint8Samples nf ins).get? n = some (Sample.uint8Sample fs a v) ∧
      fs.get? idx = some b ∧ b < 256 ∧
      (b : Int) =
        Int.emod (if 0 ≤ s.Feature idx then ⌊s.Feature idx⌋ else -⌊-(s.Feature idx)⌋) 256 := by
  refine ⟨(List.range nf).map (fun i => uint8OfFloat (s.Feature i)), s.Action, s.Advantage,
    uint8OfFloat (s.Feature idx), ?_, ?_, uint8OfFloat_lt _, ?_⟩
  · rw [Uint8Samples, List.get?_map, hn]
    rfl
  · rw [List.get?_map, List.get?_range hidx]
    rfl
  · have h0 : (0 : Int) ≤
        (s.Feature idx).num.tdiv ((s.Feature idx).den : Int) % 256 :=
      Int.emod_nonneg _ (by norm_num)
    calc ((uint8OfFloat (s.Feature idx) : Nat) : Int)
        = (s.Feature idx).num.tdiv ((s.Feature idx).den : Int) % 256 :=
          Int.toNat_of_nonneg h0
      _ = Int.emod
            (if 0 ≤ s.Feature idx then ⌊s.Feature idx⌋ else -⌊-(s.Feature idx)⌋) 256 := by
          rw [ratTrunc_eq]
          rfl

/-- Witness for C7 at a concrete stream: the out-of-range feature `300.5`
is stored as `300.5` truncated to `300`, wrapped to `44 = 300 - 256`. -/
theorem uint8Samples_truncates_witness :
    ∃ fs a v b,
      (Uint8Samples 1 [Sample.memorySample [601 / 2] 0 0]).get? 0 =
          some (Sample.uint8Sample fs a v) ∧
        fs.get? 0 = some b ∧ b < 256 ∧
        (b : Int) =
          Int.emod
            (if 0 ≤ (Sample.memorySample [601 / 2] 0 0).Feature 0 then
              ⌊(Sample.memorySample [601 / 2] 0 0).Feature 0⌋
            else -⌊-((Sample.memorySample [601 / 2] 0 0).Feature 0)⌋) 256 :=
  uint8Samples_truncates 1 [Sample.memorySample [601 / 2] 0 0] 0
    (Sample.memorySample [601 / 2] 0 0) 0 rfl (by decide)

/-- C9: `AllSamples` drains the whole sequence into an ordered collection:
the result has the input's length, its `i`-th element is the input's `i`-th
sample, and the empty input yields the empty collection. -/
theorem allSamples_preserves :
    AllSamples [] = [] ∧
    ∀ ch : List Sample, (AllSamples ch).length = ch.length ∧
      ∀ i : Nat, (AllSamples ch).get? i = ch.get? i := by
  have key : ∀ ch : List Sample, AllSamples ch = ch := by
    have aux : ∀ (l acc : List Sample), l.foldl (fun res s => res ++ [s]) acc = acc ++ l := by
      intro l
      induction l with
      | nil => intro acc; simp
      | cons x xs ih => intro acc; simp [List.foldl, ih]
    intro ch
    simpa [AllSamples] using aux ch []
  exact ⟨key [], fun ch => ⟨by rw [key], fun i => by rw [key]⟩⟩

end Treeagent
